import Mathlib

/-!
Shallow embedding of the multi-tenant control-plane core of the LightRAG
repository: the per-(tenant,project) instance cache
(`lightrag/api/instance_manager.py`), the authentication services
(`lightrag/api/services/auth_service.py`,
`lightrag/api/services/api_key_service.py`), the access-control middleware
(`lightrag/api/middleware/auth_middleware.py`), the membership operations of
`lightrag/api/services/project_service.py`, and the password-reset route of
`lightrag/api/routers/auth_routes.py`.

Conventions of the embedding:
* Python `dict` / `OrderedDict` values are association lists in insertion
  order (head = oldest entry); `move_to_end` is erase-then-append, dict
  update keeps the position of an existing key.
* Wall-clock instants (`datetime.now()` / `datetime.utcnow()`) are `Nat`
  ticks passed in explicitly; `timedelta` values are `Nat` durations in the
  same unit.
* Randomness (`secrets.token_urlsafe`) is an explicit `String` parameter.
* `bcrypt.hashpw`/`bcrypt.checkpw` are modelled by a wrapper that remembers
  the hashed string; `checkpw k h` succeeds exactly when `h` was produced
  from `k`, which is the functional contract of bcrypt (no collisions).
* Fallible Python code (raises / returns `None`) returns `Except` / `Option`.
-/

namespace LightRAGSpec

/-! ### Association-list model of Python dict / OrderedDict -/

/-- Cache key: `(tenant_id, project_id)`. -/
abbrev Key := String × String

/-- Dictionary lookup `d.get(k)` / `d[k]`: first binding of `k` wins. -/
def lookupKey {α : Type} (k : Key) : List (Key × α) → Option α
  | [] => none
  | (k', v) :: rest => if k' = k then some v else lookupKey k rest

/-- Dictionary deletion `del d[k]`: removes every binding of `k`
(a Python dict holds at most one). -/
def eraseKey {α : Type} (k : Key) : List (Key × α) → List (Key × α)
  | [] => []
  | (k', v) :: rest => if k' = k then eraseKey k rest else (k', v) :: eraseKey k rest

/-- Dictionary assignment `d[k] = v`: update in place when the key is
present, append at the end otherwise (Python insertion order). -/
def updateKey {α : Type} (k : Key) (v : α) : List (Key × α) → List (Key × α)
  | [] => [(k, v)]
  | (k', w) :: rest => if k' = k then (k', v) :: rest else (k', w) :: updateKey k v rest

/-- The keys of a dictionary, in order. -/
def keysOf {α : Type} (l : List (Key × α)) : List Key := l.map Prod.fst

/-! ### `LightRAGInstanceManager` (instance_manager.py)

Instances are identified by the `Nat` id the builder assigned them
(`nextId` is the supply of fresh ids); `buildCount` counts invocations of
the builder (`LightRAG(**instance_config, ...)` in the source).  The
configuration lookup `llm_config_service.get_default_config` is abstracted
by a predicate `hasCfg : Key → Bool`; a `false` answer is the
`ValueError` path (no configuration, nothing cached).  `finOk : Key → Bool`
records whether finalizing the sub-resources of an entry succeeds; the
source catches and logs any finalize exception, so the cache state does not
depend on it. -/

/-- Static configuration of the manager (`max_instances`, `ttl`). -/
structure IMConfig where
  maxInstances : Nat
  ttl : Nat
deriving Repr, DecidableEq

/-- Mutable state of the manager: `_instances` (an `OrderedDict`, head =
least recently used), `_last_access`, plus bookkeeping for the embedding
(fresh instance ids and a count of builder invocations). -/
structure IMState where
  instances : List (Key × Nat)
  lastAccess : List (Key × Nat)
  nextId : Nat
  buildCount : Nat
deriving Repr, DecidableEq

/-- Result of `get_instance`: an instance, or the `ValueError` raised when
no LLM configuration can be resolved for the project. -/
inductive GIResult where
  | ok (inst : Nat)
  | configError
deriving Repr, DecidableEq

/-- `_remove_instance(key)`: finalize the sub-resources of the entry (any
exception is caught and logged — the boolean outcome `_finalizeOk` does not
influence the state), then delete the key from both `_instances` and
`_last_access`.  A missing key is a no-op, as in the source. -/
def removeInstance (_finalizeOk : Bool) (key : Key) (st : IMState) : IMState :=
  if (lookupKey key st.instances).isSome then
    { st with
        instances := eraseKey key st.instances,
        lastAccess := eraseKey key st.lastAccess }
  else st

/-- The miss path of `get_instance`: fetch the configuration, build a new
instance, insert it at the end of the `OrderedDict`, record the access
time, and evict the least-recently-used entry (`next(iter(_instances))`,
the head) when the count now exceeds `max_instances`. -/
def buildNew (cfg : IMConfig) (hasCfg finOk : Key → Bool) (now : Nat) (key : Key)
    (st : IMState) : GIResult × IMState :=
  if hasCfg key then
    let inst := st.nextId
    let st1 : IMState :=
      { st with
          instances := st.instances ++ [(key, inst)],
          lastAccess := updateKey key now st.lastAccess,
          nextId := st.nextId + 1,
          buildCount := st.buildCount + 1 }
    let st2 : IMState :=
      if cfg.maxInstances < st1.instances.length then
        match st1.instances with
        | [] => st1
        | (oldest, _) :: _ => removeInstance (finOk oldest) oldest st1
      else st1
    (GIResult.ok inst, st2)
  else (GIResult.configError, st)

/-- `get_instance(tenant_id, project_id)` at instant `now`.  On a hit whose
idle time is within the TTL the entry is moved to the most-recent end and
its access time refreshed; a hit idle past the TTL is removed and rebuilt;
a miss builds.  The whole body runs under `self._lock`, so one call is one
atomic step of the state machine. -/
def getInstance (cfg : IMConfig) (hasCfg finOk : Key → Bool) (now : Nat) (key : Key)
    (st : IMState) : GIResult × IMState :=
  match lookupKey key st.instances with
  | some inst =>
      match lookupKey key st.lastAccess with
      | some la =>
          if cfg.ttl < now - la then
            buildNew cfg hasCfg finOk now key (removeInstance (finOk key) key st)
          else
            (GIResult.ok inst,
              { st with
                  instances := eraseKey key st.instances ++ [(key, inst)],
                  lastAccess := updateKey key now st.lastAccess })
      | none =>
          (GIResult.ok inst,
            { st with
                instances := eraseKey key st.instances ++ [(key, inst)],
                lastAccess := updateKey key now st.lastAccess })
  | none => buildNew cfg hasCfg finOk now key st

/-- `cleanup_expired()`: snapshot the keys whose idle time exceeds the TTL,
then remove each. -/
def cleanupExpired (cfg : IMConfig) (finOk : Key → Bool) (now : Nat)
    (st : IMState) : IMState :=
  let expiredKeys := (st.lastAccess.filter (fun kv => decide (cfg.ttl < now - kv.2))).map Prod.fst
  expiredKeys.foldl (fun s k => removeInstance (finOk k) k s) st

/-- `shutdown()`: snapshot all cached keys and remove each. -/
def shutdown (finOk : Key → Bool) (st : IMState) : IMState :=
  (keysOf st.instances).foldl (fun s k => removeInstance (finOk k) k s) st

/-- `n` consecutive `get_instance` calls for the same key at the same
instant.  Because every call holds `self._lock` for its whole body
(lookup, the awaited build, bookkeeping), any `n` concurrent callers
execute as some serial order of atomic calls, which this function models. -/
def getMany (cfg : IMConfig) (hasCfg finOk : Key → Bool) (now : Nat) (key : Key) :
    Nat → IMState → List GIResult × IMState
  | 0, st => ([], st)
  | Nat.succ n, st =>
      let r := getInstance cfg hasCfg finOk now key st
      let rest := getMany cfg hasCfg finOk now key n r.2
      (r.1 :: rest.1, rest.2)

/-- The bookkeeping invariant of the manager: `_instances` and
`_last_access` hold bindings for exactly the same keys. -/
def keySetEq (st : IMState) : Prop :=
  ∀ k : Key, (lookupKey k st.instances).isSome = (lookupKey k st.lastAccess).isSome

/-! ### JWT session tokens (`AuthService`, auth_service.py)

A token is either a payload signed with some symmetric secret or a
malformed blob.  `jwtDecode` mirrors PyJWT's `jwt.decode`: signature
verification first, then expiry; every failure is one of the
`InvalidTokenError` subclasses, which `decode_access_token` catches (its
two `except` clauses cover `ExpiredSignatureError` and every other
`InvalidTokenError`), so the Python function returns `None` rather than
propagating an exception — the embedding is total and `Option`-valued for
exactly that reason. -/

/-- Claims carried by an access token (`payload` dict in the source). -/
structure JwtPayload where
  sub : String
  email : String
  exp : Nat
  iat : Nat
  typ : String
deriving Repr, DecidableEq

/-- A bearer token as the verifier sees it. -/
inductive Jwt where
  | signed (secret : String) (payload : JwtPayload)
  | malformed (raw : String)
deriving Repr, DecidableEq

/-- PyJWT decode failures relevant here. -/
inductive JwtError where
  | expiredSignature
  | invalidToken
deriving Repr, DecidableEq

/-- `jwt.decode(token, secret, algorithms=[HS256])`: wrong or absent
signature is `InvalidTokenError`, an `exp` claim not in the future is
`ExpiredSignatureError`. -/
def jwtDecode (tok : Jwt) (secret : String) (now : Nat) : Except JwtError JwtPayload :=
  match tok with
  | Jwt.malformed _ => Except.error JwtError.invalidToken
  | Jwt.signed s p =>
      if s = secret then
        if p.exp ≤ now then Except.error JwtError.expiredSignature
        else Except.ok p
      else Except.error JwtError.invalidToken

/-- The `type` marker embedded in access tokens. -/
def accessMarker : String := "access"

/-- `AuthService.create_access_token(user_id, email)` at instant `now`,
with expiry `now + accessExpire`. -/
def createAccessToken (secretKey : String) (accessExpire : Nat) (now : Nat)
    (userId email : String) : Jwt :=
  Jwt.signed secretKey
    { sub := userId, email := email, exp := now + accessExpire, iat := now,
      typ := accessMarker }

/-- `AuthService.decode_access_token(token)`: decode, reject a `type`
marker other than `"access"`, and map every decode error to `None`. -/
def decodeAccessToken (secretKey : String) (now : Nat) (tok : Jwt) : Option JwtPayload :=
  match jwtDecode tok secretKey now with
  | Except.ok p => if p.typ = accessMarker then some p else none
  | Except.error _ => none

/-! ### Refresh tokens and password reset (`AuthService`) -/

/-- A row of `lightrag_users` (the columns these operations touch). -/
structure UserRow where
  id : String
  email : String
  isActive : Bool
  passwordResetToken : Option String
  passwordResetExpiresAt : Option Nat
deriving Repr, DecidableEq

/-- A row of `lightrag_refresh_tokens`. -/
structure RefreshRow where
  rowId : Nat
  userId : String
  token : String
  expiresAt : Nat
  revokedAt : Option Nat
  replacedBy : Option Nat
deriving Repr, DecidableEq

/-- The database state the auth service reads and writes.  `nextRefreshId`
models the auto-increment id column of `lightrag_refresh_tokens`. -/
structure AuthDB where
  users : List UserRow
  refreshTokens : List RefreshRow
  nextRefreshId : Nat
deriving Repr, DecidableEq

/-- The `(access, refresh)` pair built by the token endpoints
(`AuthTokenResponse`, reduced to the fields the claims mention). -/
structure AuthTokens where
  accessToken : Jwt
  refreshToken : String
  expiresIn : Nat
  userId : String
deriving Repr, DecidableEq

/-- The `SELECT ... FROM lightrag_refresh_tokens rt JOIN lightrag_users u`
lookup of `refresh_access_token`: the first token row that matches the
presented secret, is unexpired and unrevoked, joined to its user. -/
def findValidRefresh (now : Nat) (tok : String) (db : AuthDB) :
    Option (RefreshRow × UserRow) :=
  match db.refreshTokens.find? (fun r =>
      decide (r.token = tok ∧ now < r.expiresAt ∧ r.revokedAt = none)) with
  | none => none
  | some r =>
      match db.users.find? (fun u => decide (u.id = r.userId)) with
      | none => none
      | some u => some (r, u)

/-- `AuthService.refresh_access_token(refresh_token)`: a missing, expired,
or revoked token yields `None` and leaves the table untouched; otherwise a
new pair is issued, the successor row inserted, and the presented row
updated with `revoked_at = now, replaced_by = <successor id>`.  `freshTok`
is the `secrets.token_urlsafe(64)` output. -/
def refreshAccessToken (secretKey : String) (accessExpire refreshExpire : Nat)
    (now : Nat) (freshTok : String) (presented : String) (db : AuthDB) :
    Option AuthTokens × AuthDB :=
  match findValidRefresh now presented db with
  | none => (none, db)
  | some (r, u) =>
      let accessTok := createAccessToken secretKey accessExpire now r.userId u.email
      let newId := db.nextRefreshId
      let newRow : RefreshRow :=
        { rowId := newId, userId := r.userId, token := freshTok,
          expiresAt := now + refreshExpire, revokedAt := none, replacedBy := none }
      let tokens' :=
        (db.refreshTokens ++ [newRow]).map (fun rr =>
          if rr.rowId = r.rowId then
            { rr with revokedAt := some now, replacedBy := some newId }
          else rr)
      (some { accessToken := accessTok, refreshToken := freshTok,
              expiresIn := accessExpire * 60, userId := r.userId },
        { db with refreshTokens := tokens', nextRefreshId := newId + 1 })

/-- `AuthService.request_password_reset(email)`: look up an active user by
email; absent user means `None` and no mutation, otherwise a reset token is
stored (expiry two hours ahead; the tick unit is minutes here) and
returned. -/
def requestPasswordReset (freshTok : String) (now : Nat) (email : String)
    (db : AuthDB) : Option String × AuthDB :=
  match db.users.find? (fun u => decide (u.email = email ∧ u.isActive = true)) with
  | none => (none, db)
  | some u =>
      (some freshTok,
        { db with users := db.users.map (fun w =>
            if w.id = u.id then
              { w with passwordResetToken := some freshTok,
                       passwordResetExpiresAt := some (now + 120) }
            else w) })

/-- The uniform message of `POST /auth/password-reset/request`
(auth_routes.py): returned on success and on every failure alike. -/
def resetResponseMsg : String := "If the email exists, a password reset link has been sent"

/-- The `request_password_reset` route handler: call the service, discard
the token (it is only logged), and answer with the fixed message; the
`except` arm answers with the same message. -/
def requestPasswordResetRoute (freshTok : String) (now : Nat) (email : String)
    (db : AuthDB) : String × AuthDB :=
  let res := requestPasswordReset freshTok now email db
  (resetResponseMsg, res.2)

/-! ### `APIKeyService` (api_key_service.py)

`bcrypt` is modelled by `HashVal`/`bcryptHash`/`bcryptCheck`: a hash
remembers the string it was computed from, and `checkpw` succeeds exactly
on that string.  JSON round-tripping of the scope list
(`json.dumps`/`json.loads`) is the identity on the list of scope value
strings.  Error messages that contain an apostrophe in the source are
paraphrased without one. -/

/-- A bcrypt digest, identified by the hashed string (salting changes the
digest bytes but not the `checkpw` relation, which is all the code uses). -/
structure HashVal where
  hashed : String
deriving Repr, DecidableEq

/-- `bcrypt.hashpw(s, gensalt())`. -/
def bcryptHash (s : String) : HashVal := ⟨s⟩

/-- `bcrypt.checkpw(s, h)`. -/
def bcryptCheck (s : String) (h : HashVal) : Bool := h.hashed = s

/-- The fixed textual key marker `"lrag_"`. -/
def lragMarker : String := "lrag_"

/-- Python `key.startswith("lrag_")`, expressed on the character lists of
the strings (same semantics, amenable to proof). -/
def hasLragMarker (key : String) : Bool := lragMarker.data.isPrefixOf key.data

/-- The `"..."` suffix of the stored display fragment. -/
def dots : String := "..."

/-- Typed service-layer errors (`ValueError` / `PermissionError` in the
source, plus the crash path a `None` row would cause; routes map
`ValueError` to HTTP 400, `PermissionError` to 403 and anything else to
500). -/
inductive SvcError where
  | valueError (msg : String)
  | permissionDenied (msg : String)
  | internalError
deriving Repr, DecidableEq

/-- Message of the `ValueError` guarding the last owner. -/
def msgLastOwner : String := "Cannot remove the last owner"

/-- Message of the `ValueError` for a missing project. -/
def msgProjectNotFound : String := "Project not found"

/-- Message of the `PermissionError` for a non-member creating a key
(source: a contraction-bearing sentence, paraphrased). -/
def msgNoProjectAccess : String := "no access to this project"

/-- Message of the `PermissionError` for revoking a key one does not own
(source: a contraction-bearing sentence, paraphrased). -/
def msgNotKeyOwner : String := "not the owner of this API key"

/-- Message of the `PermissionError` in `update_member_role`. -/
def msgOnlyOwnersUpdate : String := "Only owners can update member roles"

/-- Message of the `PermissionError` in `remove_member`. -/
def msgOnlyOwnersRemove : String := "Only owners can remove members"

/-- A row of `lightrag_api_keys`. -/
structure ApiKeyRow where
  rowId : Nat
  userId : String
  tenantId : String
  projectId : String
  name : String
  keyPfx : String
  keyHash : HashVal
  scopes : List String
  expiresAt : Option Nat
  isActive : Bool
  revokedAt : Option Nat
  revokedBy : Option String
  lastUsedAt : Option Nat
deriving Repr, DecidableEq

/-- The tables `create_api_key`/`validate_api_key` touch: projects
(`id ↦ tenant_id`), project members (`(project_id, user_id)` pairs), the
key rows, and the auto-increment id supply. -/
structure ApiKeyDB where
  projects : List (String × String)
  members : List (String × String)
  apiKeys : List ApiKeyRow
  nextKeyId : Nat
deriving Repr, DecidableEq

/-- `APIKeyService.generate_api_key()`: full key `"lrag_" ++ random`,
display fragment = first 12 characters plus `"..."`, bcrypt hash of the
full key.  `randomPart` is the `secrets.token_urlsafe(32)` output. -/
def generateApiKey (randomPart : String) : String × String × HashVal :=
  let fullKey := lragMarker ++ randomPart
  (fullKey, (fullKey.take 12) ++ dots, bcryptHash fullKey)

/-- The response of `create_api_key` (the full key appears only here). -/
structure ApiKeyCreated where
  keyId : Nat
  name : String
  key : String
  keyPfx : String
  projectId : String
  tenantId : String
  scopes : List String
  expiresAt : Option Nat
deriving Repr, DecidableEq

/-- `APIKeyService.create_api_key(user_id, project_id, name, scopes,
expires_at)`: resolve the project's tenant, require membership, insert the
hashed key row (active, unrevoked — the schema default), and return the
full key once. -/
def createApiKey (userId projectId name : String) (scopes : List String)
    (expiresAt : Option Nat) (randomPart : String) (db : ApiKeyDB) :
    Except SvcError (ApiKeyCreated × ApiKeyDB) :=
  match db.projects.find? (fun p => decide (p.1 = projectId)) with
  | none => Except.error (SvcError.valueError msgProjectNotFound)
  | some proj =>
      if db.members.any (fun m => decide (m.1 = projectId ∧ m.2 = userId)) then
        let g := generateApiKey randomPart
        let row : ApiKeyRow :=
          { rowId := db.nextKeyId, userId := userId, tenantId := proj.2,
            projectId := projectId, name := name, keyPfx := g.2.1,
            keyHash := g.2.2, scopes := scopes, expiresAt := expiresAt,
            isActive := true, revokedAt := none, revokedBy := none,
            lastUsedAt := none }
        Except.ok
          ({ keyId := db.nextKeyId, name := name, key := g.1, keyPfx := g.2.1,
             projectId := projectId, tenantId := proj.2, scopes := scopes,
             expiresAt := expiresAt },
            { db with apiKeys := db.apiKeys ++ [row],
                      nextKeyId := db.nextKeyId + 1 })
      else Except.error (SvcError.permissionDenied msgNoProjectAccess)

/-- The principal data `validate_api_key` returns on success. -/
structure ApiKeyContext where
  keyId : Nat
  userId : String
  tenantId : String
  projectId : String
  scopes : List String
deriving Repr, DecidableEq

/-- The `WHERE` clause of the candidate query in `validate_api_key`:
active, unrevoked, and unexpired at `now`. -/
def activeKeyFilter (now : Nat) (r : ApiKeyRow) : Bool :=
  r.isActive && decide (r.revokedAt = none) &&
    (match r.expiresAt with
     | none => true
     | some e => decide (now < e))

/-- `APIKeyService.validate_api_key(key)`: keys must carry the `"lrag_"`
marker; every active candidate row is hash-compared in order; the first
match has its `last_used_at` stamped (best effort) and its binding
returned. -/
def validateApiKey (now : Nat) (key : String) (db : ApiKeyDB) :
    Option ApiKeyContext × ApiKeyDB :=
  if hasLragMarker key then
    match (db.apiKeys.filter (activeKeyFilter now)).find?
        (fun r => bcryptCheck key r.keyHash) with
    | some r =>
        (some { keyId := r.rowId, userId := r.userId, tenantId := r.tenantId,
                projectId := r.projectId, scopes := r.scopes },
          { db with apiKeys := db.apiKeys.map (fun rr =>
              if rr.rowId = r.rowId then { rr with lastUsedAt := some now }
              else rr) })
    | none => (none, db)
  else (none, db)

/-- `APIKeyService.revoke_api_key(key_id, user_id)`: the `SELECT user_id =
$1` ownership probe (`NULL`, i.e. a missing row, is falsy), then the
soft-revoke update. -/
def revokeApiKey (now : Nat) (keyId : Nat) (userId : String) (db : ApiKeyDB) :
    Except SvcError (Bool × ApiKeyDB) :=
  match db.apiKeys.find? (fun r => decide (r.rowId = keyId)) with
  | none => Except.error (SvcError.permissionDenied msgNotKeyOwner)
  | some r =>
      if r.userId = userId then
        Except.ok (true,
          { db with apiKeys := db.apiKeys.map (fun rr =>
              if rr.rowId = keyId then
                { rr with isActive := false, revokedAt := some now,
                          revokedBy := some userId }
              else rr) })
      else Except.error (SvcError.permissionDenied msgNotKeyOwner)

/-! ### Access control (`auth_middleware.py`) -/

/-- The `admin` scope string. -/
def adminScope : String := "admin"

/-- The role string `check_project_access` returns for API-key callers. -/
def apiKeyRole : String := "api_key"

/-- What the middleware left in `request.state`: an API-key principal
(with the binding copied from the validated key row), a JWT principal, or
nothing. -/
inductive AuthState where
  | apiKeyAuth (userId tenantId projectId : String) (scopes : List String)
  | jwtAuth (userId : String)
  | anon
deriving Repr, DecidableEq

/-- Outcome of `check_project_access`: a resolved role, or the status code
of the raised `HTTPException`. -/
inductive AccessDecision where
  | allowedRole (role : String)
  | httpError (status : Nat)
deriving Repr, DecidableEq

/-- Python truthiness of the `required_roles` argument (`None` and the
empty list are both falsy). -/
def rolesTruthy : Option (List String) → Bool
  | none => false
  | some [] => false
  | some (_ :: _) => true

/-- `check_project_access(request, tenant_id, project_id, project_service,
required_roles)`.  For an API-key principal the key's own
`(tenant_id, project_id)` binding is compared with the requested one and a
mismatch is a 403 before any scope is consulted; `memberRole` stands for
the `project_service.check_user_access` result consulted on the JWT
branch. -/
def checkProjectAccess (auth : AuthState) (tenantId projectId : String)
    (memberRole : Option String) (requiredRoles : Option (List String)) :
    AccessDecision :=
  match auth with
  | AuthState.apiKeyAuth _ kTid kPid scopes =>
      if kTid = tenantId ∧ kPid = projectId then
        if scopes.contains adminScope then AccessDecision.allowedRole apiKeyRole
        else if rolesTruthy requiredRoles then AccessDecision.httpError 403
        else AccessDecision.allowedRole apiKeyRole
      else AccessDecision.httpError 403
  | AuthState.jwtAuth _ =>
      match memberRole with
      | none => AccessDecision.httpError 403
      | some role =>
          if rolesTruthy requiredRoles then
            match requiredRoles with
            | some rs =>
                if rs.contains role then AccessDecision.allowedRole role
                else AccessDecision.httpError 403
            | none => AccessDecision.allowedRole role
          else AccessDecision.allowedRole role
  | AuthState.anon => AccessDecision.httpError 401

/-- Lines 67–71 of the middleware: `request.state` is populated from the
context `validate_api_key` returned — the caller supplies nothing. -/
def apiKeyAuthState (ctx : ApiKeyContext) : AuthState :=
  AuthState.apiKeyAuth ctx.userId ctx.tenantId ctx.projectId ctx.scopes

/-! ### Project membership (`ProjectService`, project_service.py) -/

/-- Member roles (`UserRole` in auth_models.py). -/
inductive Role where
  | owner
  | admin
  | member
  | viewer
deriving Repr, DecidableEq

/-- A row of `lightrag_project_members` (the columns these operations
read). -/
structure MemberRow where
  projectId : String
  userId : String
  role : Role
deriving Repr, DecidableEq

/-- `SELECT role FROM lightrag_project_members WHERE project_id = $1 AND
user_id = $2` (first row wins). -/
def memberRole (table : List MemberRow) (projectId userId : String) : Option Role :=
  (table.find? (fun r => decide (r.projectId = projectId ∧ r.userId = userId))).map
    (fun r => r.role)

/-- `SELECT COUNT(*) ... WHERE project_id = $1 AND role = 'owner'`. -/
def ownerCount (table : List MemberRow) (projectId : String) : Nat :=
  table.countP (fun r => decide (r.projectId = projectId ∧ r.role = Role.owner))

/-- `ProjectService.update_member_role(project_id, target_user_id,
new_role, updated_by)`: only an owner may update; the `UPDATE` then
rewrites the target's role with no check on the remaining owner count; the
follow-up `SELECT` of the updated row crashes (HTTP 500) when the target
was never a member. -/
def updateMemberRole (table : List MemberRow) (projectId targetUserId : String)
    (newRole : Role) (updatedBy : String) : Except SvcError (List MemberRow) :=
  if memberRole table projectId updatedBy = some Role.owner then
    let table' := table.map (fun r =>
      if r.projectId = projectId ∧ r.userId = targetUserId then
        { r with role := newRole }
      else r)
    match table'.find? (fun r =>
        decide (r.projectId = projectId ∧ r.userId = targetUserId)) with
    | some _ => Except.ok table'
    | none => Except.error SvcError.internalError
  else Except.error (SvcError.permissionDenied msgOnlyOwnersUpdate)

/-- `ProjectService.remove_member(project_id, target_user_id, removed_by)`:
only an owner may remove; removing an owner is refused when the project has
at most one owner (`ValueError`, mapped to HTTP 400 by the route); the
`DELETE` then drops the target's membership rows. -/
def removeMember (table : List MemberRow) (projectId targetUserId removedBy : String) :
    Except SvcError (List MemberRow) :=
  if memberRole table projectId removedBy = some Role.owner then
    if memberRole table projectId targetUserId = some Role.owner ∧
        ownerCount table projectId ≤ 1 then
      Except.error (SvcError.valueError msgLastOwner)
    else
      Except.ok (table.filter (fun r =>
        !(decide (r.projectId = projectId ∧ r.userId = targetUserId))))
  else Except.error (SvcError.permissionDenied msgOnlyOwnersRemove)

/-- A well-formedness hypothesis used by the membership theorems: the
`(project_id, user_id)` pair is a key of `lightrag_project_members`, so no
two rows share it. -/
def pairNodup (table : List MemberRow) : Prop :=
  (table.map (fun r => (r.projectId, r.userId))).Nodup

/-- Whether an optional expiry instant is still in the future at `now`
(`expires_at IS NULL OR expires_at > now`). -/
def expOk (now : Nat) : Option Nat → Prop
  | none => True
  | some e => now < e

/-! ### Concrete inputs used by the witness theorems -/

/-- Sample cache key. -/
def kA : Key := ("t1", "p1")

/-- Second sample cache key. -/
def kB : Key := ("t1", "p2")

/-- Manager configuration with room for one entry. -/
def cfgOne : IMConfig := { maxInstances := 1, ttl := 10 }

/-- Manager configuration with room for two entries. -/
def cfgTwo : IMConfig := { maxInstances := 2, ttl := 10 }

/-- Every project has a configuration. -/
def allCfg : Key → Bool := fun _ => true

/-- Every finalize call succeeds. -/
def allOk : Key → Bool := fun _ => true

/-- The empty manager state. -/
def stEmpty : IMState := { instances := [], lastAccess := [], nextId := 0, buildCount := 0 }

/-- A manager state holding `kA`, last accessed at instant 0. -/
def stOne : IMState :=
  { instances := [(kA, 0)], lastAccess := [(kA, 0)], nextId := 1, buildCount := 1 }

/-- A manager state holding `kA` (stale, last accessed at 0) and `kB`
(fresh, last accessed at 15). -/
def stMix : IMState :=
  { instances := [(kA, 0), (kB, 1)], lastAccess := [(kA, 0), (kB, 15)],
    nextId := 2, buildCount := 2 }

/-- Sample secret key for token signing. -/
def sKeyW : String := "signing-secret"

/-- Sample user for the refresh witness. -/
def userW : UserRow :=
  { id := "u1", email := "u1@example.com", isActive := true,
    passwordResetToken := none, passwordResetExpiresAt := none }

/-- Sample live refresh-token row. -/
def refreshRowW : RefreshRow :=
  { rowId := 0, userId := "u1", token := "oldtok", expiresAt := 100,
    revokedAt := none, replacedBy := none }

/-- Sample auth database with one user and one live refresh token. -/
def authDbW : AuthDB := { users := [userW], refreshTokens := [refreshRowW], nextRefreshId := 1 }

/-- Sample string identifiers. -/
def uW : String := "u1"

/-- Sample tenant id. -/
def tW : String := "t1"

/-- Sample project id. -/
def pW : String := "p1"

/-- A different project id. -/
def pX : String := "p2"

/-- Sample key name. -/
def nameW : String := "ci-key"

/-- Sample random part of a generated API key. -/
def randW : String := "R4nd0mR4nd0m"

/-- The full API key the sample random part yields. -/
def fullKeyW : String := lragMarker ++ randW

/-- Sample fresh token strings. -/
def freshW : String := "newtok"

/-- The presented token of the refresh witness. -/
def oldTokW : String := "oldtok"

/-- Sample API-key database: one project, one member, no keys yet. -/
def apiDbW : ApiKeyDB :=
  { projects := [(pW, tW)], members := [(pW, uW)], apiKeys := [], nextKeyId := 1 }

/-- A stored, active admin-scoped key row for `fullKeyW`. -/
def keyRowW : ApiKeyRow :=
  { rowId := 1, userId := uW, tenantId := tW, projectId := pW, name := nameW,
    keyPfx := (fullKeyW.take 12) ++ dots, keyHash := bcryptHash fullKeyW,
    scopes := [adminScope], expiresAt := none, isActive := true,
    revokedAt := none, revokedBy := none, lastUsedAt := none }

/-- Sample API-key database already holding `keyRowW`. -/
def apiDbK : ApiKeyDB :=
  { projects := [(pW, tW)], members := [(pW, uW)], apiKeys := [keyRowW], nextKeyId := 2 }

/-- The context `validate_api_key` yields for `fullKeyW` against `apiDbK`. -/
def ctxW : ApiKeyContext :=
  { keyId := 1, userId := uW, tenantId := tW, projectId := pW, scopes := [adminScope] }

/-- The create response for `fullKeyW`. -/
def respW : ApiKeyCreated :=
  { keyId := 1, name := nameW, key := fullKeyW, keyPfx := (fullKeyW.take 12) ++ dots,
    projectId := pW, tenantId := tW, scopes := [adminScope], expiresAt := none }

/-- `keyRowW` after `revoke_api_key` at instant 7. -/
def keyRowRevoked : ApiKeyRow :=
  { keyRowW with isActive := false, revokedAt := some 7, revokedBy := some uW }

/-- `apiDbK` after the revocation. -/
def apiDbRevoked : ApiKeyDB := { apiDbK with apiKeys := [keyRowRevoked] }

/-- `keyRowW` with an expiry already in the past at instant 5. -/
def keyRowExp : ApiKeyRow := { keyRowW with expiresAt := some 4 }

/-- A database holding only the expired key row. -/
def apiDbExp : ApiKeyDB := { apiDbK with apiKeys := [keyRowExp] }

/-- Sample membership table: a single owner. -/
def tblSolo : List MemberRow := [{ projectId := pW, userId := uW, role := Role.owner }]

/-- The sample table after the sole owner is demoted. -/
def tblDemoted : List MemberRow := [{ projectId := pW, userId := uW, role := Role.member }]

/-- A second member id. -/
def uV : String := "u2"

/-- Sample membership table with two owners. -/
def tblTwo : List MemberRow :=
  [{ projectId := pW, userId := uW, role := Role.owner },
   { projectId := pW, userId := uV, role := Role.owner }]

/-! ## Lemmas about the dictionary model -/

theorem lookupKey_eraseKey_self {α : Type} (k : Key) (l : List (Key × α)) :
    lookupKey k (eraseKey k l) = none := by
  induction l with
  | nil => rfl
  | cons hd tl ih =>
      obtain ⟨k', v⟩ := hd
      by_cases h : k' = k
      · simp [eraseKey, h, ih]
      · simp [eraseKey, lookupKey, h, ih]

theorem lookupKey_eraseKey_ne {α : Type} {k k' : Key} (l : List (Key × α))
    (h : k' ≠ k) : lookupKey k' (eraseKey k l) = lookupKey k' l := by
  induction l with
  | nil => rfl
  | cons hd tl ih =>
      obtain ⟨a, v⟩ := hd
      by_cases ha : a = k
      · subst ha
        have : a ≠ k' := fun hc => h hc.symm
        simp [eraseKey, lookupKey, this, ih]
      · by_cases ha' : a = k'
        · simp [eraseKey, lookupKey, ha, ha', h]
        · simp [eraseKey, lookupKey, ha, ha', ih]

theorem lookupKey_eraseKey_none {α : Type} {k : Key} (k' : Key) {l : List (Key × α)}
    (h : lookupKey k l = none) : lookupKey k (eraseKey k' l) = none := by
  by_cases hk : k = k'
  · subst hk; exact lookupKey_eraseKey_self k l
  · rw [lookupKey_eraseKey_ne l hk]; exact h

theorem lookupKey_append_none {α : Type} {k : Key} {l₁ : List (Key × α)}
    (l₂ : List (Key × α)) (h : lookupKey k l₁ = none) :
    lookupKey k (l₁ ++ l₂) = lookupKey k l₂ := by
  induction l₁ with
  | nil => rfl
  | cons hd tl ih =>
      obtain ⟨a, v⟩ := hd
      by_cases ha : a = k
      · simp [lookupKey, ha] at h
      · simp only [lookupKey, ha, if_false, List.cons_append] at h ⊢
        exact ih h

theorem lookupKey_append_some {α : Type} {k : Key} {v : α} {l₁ : List (Key × α)}
    (l₂ : List (Key × α)) (h : lookupKey k l₁ = some v) :
    lookupKey k (l₁ ++ l₂) = some v := by
  induction l₁ with
  | nil => simp [lookupKey] at h
  | cons hd tl ih =>
      obtain ⟨a, w⟩ := hd
      by_cases ha : a = k
      · simp only [lookupKey, ha, if_true] at h ⊢
        simpa using h
      · simp only [lookupKey, ha, if_false, List.cons_append] at h ⊢
        exact ih h

theorem lookupKey_updateKey_self {α : Type} (k : Key) (v : α) (l : List (Key × α)) :
    lookupKey k (updateKey k v l) = some v := by
  induction l with
  | nil => simp [updateKey, lookupKey]
  | cons hd tl ih =>
      obtain ⟨a, w⟩ := hd
      by_cases ha : a = k
      · simp [updateKey, lookupKey, ha]
      · simp [updateKey, lookupKey, ha, ih]

theorem lookupKey_updateKey_ne {α : Type} {k k' : Key} (v : α) (l : List (Key × α))
    (h : k' ≠ k) : lookupKey k' (updateKey k v l) = lookupKey k' l := by
  induction l with
  | nil =>
      have : k ≠ k' := fun hc => h hc.symm
      simp [updateKey, lookupKey, this]
  | cons hd tl ih =>
      obtain ⟨a, w⟩ := hd
      by_cases ha : a = k
      · subst ha
        have : a ≠ k' := fun hc => h hc.symm
        simp [updateKey, lookupKey, this]
      · by_cases ha' : a = k'
        · simp [updateKey, lookupKey, ha, ha', h]
        · simp [updateKey, lookupKey, ha, ha', ih]

theorem eraseKey_of_lookup_none {α : Type} {k : Key} {l : List (Key × α)}
    (h : lookupKey k l = none) : eraseKey k l = l := by
  induction l with
  | nil => rfl
  | cons hd tl ih =>
      obtain ⟨a, v⟩ := hd
      by_cases ha : a = k
      · simp [lookupKey, ha] at h
      · simp only [lookupKey, ha, if_false] at h
        simp [eraseKey, ha, ih h]

theorem length_eraseKey_le {α : Type} (k : Key) (l : List (Key × α)) :
    (eraseKey k l).length ≤ l.length := by
  induction l with
  | nil => simp [eraseKey]
  | cons hd tl ih =>
      obtain ⟨a, v⟩ := hd
      by_cases ha : a = k
      · simp only [eraseKey, ha, if_true, List.length_cons]
        exact Nat.le_succ_of_le ih
      · simp only [eraseKey, ha, if_false, List.length_cons]
        exact Nat.succ_le_succ ih

theorem length_eraseKey_lt {α : Type} {k : Key} {l : List (Key × α)}
    (h : (lookupKey k l).isSome = true) : (eraseKey k l).length < l.length := by
  induction l with
  | nil => simp [lookupKey] at h
  | cons hd tl ih =>
      obtain ⟨a, v⟩ := hd
      by_cases ha : a = k
      · simp only [eraseKey, ha, if_true, List.length_cons]
        exact Nat.lt_succ_of_le (length_eraseKey_le k tl)
      · simp only [lookupKey, ha, if_false] at h
        simp only [eraseKey, ha, if_false, List.length_cons]
        exact Nat.succ_lt_succ (ih h)

theorem keysOf_cons {α : Type} (a : Key) (v : α) (tl : List (Key × α)) :
    keysOf ((a, v) :: tl) = a :: keysOf tl := rfl

theorem lookupKey_eq_none_iff {α : Type} (k : Key) (l : List (Key × α)) :
    lookupKey k l = none ↔ k ∉ keysOf l := by
  induction l with
  | nil => simp [lookupKey, keysOf]
  | cons hd tl ih =>
      obtain ⟨a, v⟩ := hd
      by_cases ha : a = k
      · subst ha
        constructor
        · intro hc; simp [lookupKey] at hc
        · intro hc
          exact absurd (by rw [keysOf_cons]; exact List.mem_cons_self _ _) hc
      · have hk : k ≠ a := fun hc => ha hc.symm
        constructor
        · intro hc hmem
          rw [keysOf_cons] at hmem
          rcases List.mem_cons.1 hmem with hc' | hmem'
          · exact hk hc'
          · simp only [lookupKey, ha, if_false] at hc
            exact (ih.1 hc) hmem'
        · intro hc
          simp only [lookupKey, ha, if_false]
          refine ih.2 (fun hmem' => hc ?_)
          rw [keysOf_cons]
          exact List.mem_cons_of_mem _ hmem'

theorem lookupKey_isSome_iff {α : Type} (k : Key) (l : List (Key × α)) :
    (lookupKey k l).isSome = true ↔ k ∈ keysOf l := by
  rw [Option.isSome_iff_ne_none]
  constructor
  · intro h
    by_contra hmem
    exact h ((lookupKey_eq_none_iff k l).2 hmem)
  · intro h hnone
    exact ((lookupKey_eq_none_iff k l).1 hnone) h

theorem lookupKey_some_mem {α : Type} {k : Key} {v : α} {l : List (Key × α)}
    (h : lookupKey k l = some v) : (k, v) ∈ l := by
  induction l with
  | nil => simp [lookupKey] at h
  | cons hd tl ih =>
      obtain ⟨a, w⟩ := hd
      by_cases ha : a = k
      · simp only [lookupKey, ha, if_true, Option.some.injEq] at h
        subst ha; subst h
        exact List.mem_cons_self _ _
      · simp only [lookupKey, ha, if_false] at h
        exact List.mem_cons_of_mem _ (ih h)

theorem isSome_lookupKey_append_self {α : Type} (k : Key) (v : α) (l : List (Key × α)) :
    (lookupKey k (l ++ [(k, v)])).isSome = true := by
  cases h : lookupKey k l with
  | none => rw [lookupKey_append_none _ h]; simp [lookupKey]
  | some w => rw [lookupKey_append_some _ h]; rfl

theorem lookupKey_append_single_ne {α : Type} {k k' : Key} (v : α) (l : List (Key × α))
    (h : k' ≠ k) : lookupKey k' (l ++ [(k, v)]) = lookupKey k' l := by
  cases hl : lookupKey k' l with
  | none =>
      rw [lookupKey_append_none _ hl]
      have hk : ¬k = k' := fun hc => h hc.symm
      simp [lookupKey, hk]
  | some w => exact lookupKey_append_some _ hl

/-! ## Lemmas about the instance-manager state machine -/

theorem removeInstance_lookup_ne (b : Bool) {k key : Key} (st : IMState)
    (h : k ≠ key) :
    lookupKey k (removeInstance b key st).instances = lookupKey k st.instances ∧
    lookupKey k (removeInstance b key st).lastAccess = lookupKey k st.lastAccess := by
  unfold removeInstance
  split
  · exact ⟨lookupKey_eraseKey_ne _ h, lookupKey_eraseKey_ne _ h⟩
  · exact ⟨rfl, rfl⟩

theorem removeInstance_lastAccess_some (b : Bool) (key : Key) (st : IMState)
    {k : Key} {la : Nat}
    (h : lookupKey k (removeInstance b key st).lastAccess = some la) :
    lookupKey k st.lastAccess = some la := by
  by_cases hk : k = key
  · subst hk
    unfold removeInstance at h
    split at h
    · rw [lookupKey_eraseKey_self] at h; exact absurd h (by simp)
    · exact h
  · exact ((removeInstance_lookup_ne b st hk).2 ▸ h)

theorem removeInstance_lastAccess_none (b : Bool) (key : Key) (st : IMState)
    {k : Key} (h : lookupKey k st.lastAccess = none) :
    lookupKey k (removeInstance b key st).lastAccess = none := by
  unfold removeInstance
  split
  · exact lookupKey_eraseKey_none key h
  · exact h

theorem keySetEq_removeInstance {st : IMState} (b : Bool) (key : Key)
    (h : keySetEq st) : keySetEq (removeInstance b key st) := by
  intro k
  by_cases hk : k = key
  · subst hk
    unfold removeInstance
    split
    · simp [lookupKey_eraseKey_self]
    · exact h k
  · obtain ⟨h1, h2⟩ := removeInstance_lookup_ne b st hk
    rw [h1, h2]; exact h k

theorem removeInstance_length_le (b : Bool) (key : Key) (st : IMState) :
    (removeInstance b key st).instances.length ≤ st.instances.length := by
  unfold removeInstance
  split
  · exact length_eraseKey_le _ _
  · exact Nat.le_refl _

/-- A fold of `removeInstance` over any key list preserves the key-set
invariant. -/
theorem keySetEq_foldRemove (f : Key → Bool) (ks : List Key) {st : IMState}
    (h : keySetEq st) :
    keySetEq (ks.foldl (fun s k => removeInstance (f k) k s) st) := by
  induction ks generalizing st with
  | nil => exact h
  | cons a rest ih => exact ih (keySetEq_removeInstance (f a) a h)

/-- A key absent from `_last_access` stays absent under a fold of
removals. -/
theorem foldRemove_lastAccess_none (f : Key → Bool) (ks : List Key) {st : IMState}
    {k : Key} (h : lookupKey k st.lastAccess = none) :
    lookupKey k ((ks.foldl (fun s k' => removeInstance (f k') k' s) st)).lastAccess = none := by
  induction ks generalizing st with
  | nil => exact h
  | cons a rest ih => exact ih (removeInstance_lastAccess_none (f a) a st h)

/-- A surviving `_last_access` binding after a fold of removals was
already present, with the same value, before the fold. -/
theorem foldRemove_lastAccess_some (f : Key → Bool) (ks : List Key) {st : IMState}
    {k : Key} {la : Nat}
    (h : lookupKey k ((ks.foldl (fun s k' => removeInstance (f k') k' s) st)).lastAccess = some la) :
    lookupKey k st.lastAccess = some la := by
  induction ks generalizing st with
  | nil => exact h
  | cons a rest ih => exact removeInstance_lastAccess_some (f a) a st (ih h)

/-- A key explicitly in the removal snapshot is gone after the fold,
provided the key-set invariant holds (so the guard of `_remove_instance`
cannot skip a key that still has a `_last_access` binding). -/
theorem foldRemove_lastAccess_mem_none (f : Key → Bool) (ks : List Key) {st : IMState}
    {k : Key} (hinv : keySetEq st) (hmem : k ∈ ks) :
    lookupKey k ((ks.foldl (fun s k' => removeInstance (f k') k' s) st)).lastAccess = none := by
  induction ks generalizing st with
  | nil => cases hmem
  | cons a rest ih =>
      rcases List.mem_cons.1 hmem with hk | hmem'
      · subst hk
        have hnone : lookupKey k (removeInstance (f k) k st).lastAccess = none := by
          unfold removeInstance
          split
          · exact lookupKey_eraseKey_self _ _
          · next hguard =>
              have : (lookupKey k st.instances).isSome = false :=
                Bool.not_eq_true _ ▸ (by simpa using hguard)
              have h2 := hinv k
              rw [this] at h2
              exact Option.not_isSome_iff_eq_none.1 (by rw [← h2]; simp)
        exact foldRemove_lastAccess_none f rest hnone
      · exact ih (keySetEq_removeInstance (f a) a hinv) hmem'

theorem removeInstance_length_lt {key : Key} {st : IMState} (b : Bool)
    (h : (lookupKey key st.instances).isSome = true) :
    (removeInstance b key st).instances.length < st.instances.length := by
  unfold removeInstance
  rw [if_pos h]
  exact length_eraseKey_lt h

theorem buildNew_length_le (cfg : IMConfig) (hasCfg finOk : Key → Bool) (now : Nat)
    (key : Key) (st : IMState) (h : st.instances.length ≤ cfg.maxInstances) :
    (buildNew cfg hasCfg finOk now key st).2.instances.length ≤ cfg.maxInstances := by
  unfold buildNew
  split
  · dsimp only
    split
    · next hlt =>
        split
        · next heq => exact absurd heq (by simp)
        · next oldest v rest heq =>
            have hsome : (lookupKey oldest
                ({ st with
                    instances := st.instances ++ [(key, st.nextId)],
                    lastAccess := updateKey key now st.lastAccess,
                    nextId := st.nextId + 1,
                    buildCount := st.buildCount + 1 } : IMState).instances).isSome = true := by
              dsimp only
              rw [heq]
              simp [lookupKey]
            have hlt2 := removeInstance_length_lt (b := finOk oldest) hsome
            have hlen : (st.instances ++ [(key, st.nextId)]).length =
                st.instances.length + 1 := by simp
            dsimp only at hlt2
            omega
    · next hnlt =>
        dsimp only
        have : (st.instances ++ [(key, st.nextId)]).length = st.instances.length + 1 := by
          simp
        omega
  · exact h

theorem getInstance_hit_eq (cfg : IMConfig) (hasCfg finOk : Key → Bool) (now : Nat)
    (key : Key) (st : IMState) {inst la : Nat}
    (h1 : lookupKey key st.instances = some inst)
    (h2 : lookupKey key st.lastAccess = some la)
    (h3 : ¬cfg.ttl < now - la) :
    getInstance cfg hasCfg finOk now key st =
      (GIResult.ok inst,
        { st with
            instances := eraseKey key st.instances ++ [(key, inst)],
            lastAccess := updateKey key now st.lastAccess }) := by
  unfold getInstance
  rw [h1, h2]
  simp [h3]

theorem buildNew_no_evict_eq (cfg : IMConfig) (hasCfg finOk : Key → Bool) (now : Nat)
    (key : Key) (st : IMState)
    (hc : hasCfg key = true) (hlen : st.instances.length < cfg.maxInstances) :
    buildNew cfg hasCfg finOk now key st =
      (GIResult.ok st.nextId,
        { st with
            instances := st.instances ++ [(key, st.nextId)],
            lastAccess := updateKey key now st.lastAccess,
            nextId := st.nextId + 1,
            buildCount := st.buildCount + 1 }) := by
  unfold buildNew
  rw [if_pos hc]
  have hno : ¬cfg.maxInstances <
      ({ st with
          instances := st.instances ++ [(key, st.nextId)],
          lastAccess := updateKey key now st.lastAccess,
          nextId := st.nextId + 1,
          buildCount := st.buildCount + 1 } : IMState).instances.length := by
    dsimp only
    simp only [List.length_append, List.length_cons, List.length_nil]
    omega
  simp only [hno, if_false]

theorem keySetEq_buildNew (cfg : IMConfig) (hasCfg finOk : Key → Bool) (now : Nat)
    (key : Key) {st : IMState} (h : keySetEq st) :
    keySetEq (buildNew cfg hasCfg finOk now key st).2 := by
  have h1 : keySetEq
      { st with
          instances := st.instances ++ [(key, st.nextId)],
          lastAccess := updateKey key now st.lastAccess,
          nextId := st.nextId + 1,
          buildCount := st.buildCount + 1 } := by
    intro k
    by_cases hk : k = key
    · subst hk
      dsimp only
      rw [isSome_lookupKey_append_self, lookupKey_updateKey_self]
      rfl
    · dsimp only
      rw [lookupKey_append_single_ne _ _ hk, lookupKey_updateKey_ne _ _ hk]
      exact h k
  unfold buildNew
  split
  · dsimp only
    split
    · split
      · exact h1
      · exact keySetEq_removeInstance _ _ h1
    · exact h1
  · exact h

theorem keySetEq_getInstance (cfg : IMConfig) (hasCfg finOk : Key → Bool) (now : Nat)
    (key : Key) {st : IMState} (h : keySetEq st) :
    keySetEq (getInstance cfg hasCfg finOk now key st).2 := by
  unfold getInstance
  split
  · next inst hsome =>
      split
      · next la hla =>
          split
          · exact keySetEq_buildNew _ _ _ _ _ (keySetEq_removeInstance _ _ h)
          · intro k
            by_cases hk : k = key
            · subst hk
              dsimp only
              rw [isSome_lookupKey_append_self, lookupKey_updateKey_self]
              rfl
            · dsimp only
              rw [lookupKey_append_single_ne _ _ hk, lookupKey_updateKey_ne _ _ hk,
                lookupKey_eraseKey_ne _ hk]
              exact h k
      · next hla =>
          exfalso
          have hkey := h key
          rw [hsome, hla] at hkey
          simp at hkey
  · exact keySetEq_buildNew _ _ _ _ _ h

theorem getInstance_miss_eq (cfg : IMConfig) (hasCfg finOk : Key → Bool) (now : Nat)
    (key : Key) (st : IMState) (hmiss : lookupKey key st.instances = none) :
    getInstance cfg hasCfg finOk now key st = buildNew cfg hasCfg finOk now key st := by
  unfold getInstance
  rw [hmiss]

theorem keysOf_append {α : Type} (l₁ l₂ : List (Key × α)) :
    keysOf (l₁ ++ l₂) = keysOf l₁ ++ keysOf l₂ := by
  simp [keysOf]

/-- On the overflow path (`len(_instances) > max_instances` after the
insertion), `buildNew` evicts exactly the head of the `OrderedDict` — the
least-recently-used entry — leaving the tail of the post-insertion list. -/
theorem buildNew_evict_instances (cfg : IMConfig) (hasCfg finOk : Key → Bool) (now : Nat)
    (key : Key) (st : IMState)
    (hc : hasCfg key = true)
    (hmiss : lookupKey key st.instances = none)
    (hNodup : (keysOf st.instances).Nodup)
    (hlen : st.instances.length = cfg.maxInstances) :
    (buildNew cfg hasCfg finOk now key st).1 = GIResult.ok st.nextId ∧
    (buildNew cfg hasCfg finOk now key st).2.instances =
      (st.instances ++ [(key, st.nextId)]).tail := by
  have hkey_not : key ∉ keysOf st.instances := (lookupKey_eq_none_iff key _).1 hmiss
  have hNodupAll : (keysOf (st.instances ++ [(key, st.nextId)])).Nodup := by
    rw [keysOf_append]
    refine List.Nodup.append hNodup (by simp [keysOf]) ?_
    intro a ha hb
    simp [keysOf] at hb
    subst hb
    exact hkey_not ha
  unfold buildNew
  rw [if_pos hc]
  have hlt : cfg.maxInstances <
      ({ st with
          instances := st.instances ++ [(key, st.nextId)],
          lastAccess := updateKey key now st.lastAccess,
          nextId := st.nextId + 1,
          buildCount := st.buildCount + 1 } : IMState).instances.length := by
    dsimp only
    simp only [List.length_append, List.length_cons, List.length_nil]
    omega
  simp only [hlt, if_true]
  split
  · next heq => exact absurd heq (by simp)
  · next oldest v rest heq =>
      constructor
      · trivial
      · have hsome : (lookupKey oldest
            ({ st with
                instances := st.instances ++ [(key, st.nextId)],
                lastAccess := updateKey key now st.lastAccess,
                nextId := st.nextId + 1,
                buildCount := st.buildCount + 1 } : IMState).instances).isSome = true := by
          dsimp only
          rw [heq]
          simp [lookupKey]
        unfold removeInstance
        rw [if_pos hsome]
        dsimp only
        rw [heq]
        have hrest : oldest ∉ keysOf rest := by
          rw [heq] at hNodupAll
          rw [keysOf_cons] at hNodupAll
          exact (List.nodup_cons.1 hNodupAll).1
        have herase : eraseKey oldest rest = rest :=
          eraseKey_of_lookup_none ((lookupKey_eq_none_iff oldest rest).2 hrest)
        simp [eraseKey, herase]

/-- C10: after every public operation of the instance manager
(`get_instance` on any path, `cleanup_expired`, `shutdown`), `_instances`
and `_last_access` hold bindings for exactly the same `(tenant_id,
project_id)` keys; `_remove_instance` deletes from both maps outside its
`try/except`, so the invariant also survives a failing sub-resource
finalize (the `finOk` parameter is universally quantified). -/
theorem c10_instance_lastaccess_keys_agree (cfg : IMConfig) (hasCfg finOk : Key → Bool)
    (now : Nat) (key : Key) (st : IMState) (h : keySetEq st) :
    keySetEq (getInstance cfg hasCfg finOk now key st).2 ∧
    keySetEq (cleanupExpired cfg finOk now st) ∧
    keySetEq (shutdown finOk st) := by
  refine ⟨keySetEq_getInstance _ _ _ _ _ h, ?_, ?_⟩
  · unfold cleanupExpired
    exact keySetEq_foldRemove _ _ h
  · unfold shutdown
    exact keySetEq_foldRemove _ _ h

/-- Witness for C10 at a concrete one-entry state. -/
theorem c10_witness :
    keySetEq (getInstance cfgTwo allCfg allOk 20 kB stOne).2 ∧
    keySetEq (cleanupExpired cfgTwo allOk 20 stOne) ∧
    keySetEq (shutdown allOk stOne) :=
  c10_instance_lastaccess_keys_agree cfgTwo allCfg allOk 20 kB stOne (fun _ => rfl)

/-- C1: under the inductive well-formedness of the cache (`_instances`
keys distinct, entry count within `max_instances`), a `get_instance` call
(a) keeps the entry count within `max_instances`; (b) on a miss whose
insertion stays within the bound, evicts nothing — the new state is the old
entries plus the new one at the most-recent end; (c) on a miss whose
insertion exceeds the bound by one, evicts exactly the single
least-recently-used entry, the head of the `OrderedDict` (which is the
just-inserted entry only in the degenerate `max_instances = 0` case). -/
theorem c1_lru_capacity (cfg : IMConfig) (hasCfg finOk : Key → Bool) (now : Nat)
    (key : Key) (st : IMState)
    (hNodup : (keysOf st.instances).Nodup)
    (hLen : st.instances.length ≤ cfg.maxInstances) :
    (getInstance cfg hasCfg finOk now key st).2.instances.length ≤ cfg.maxInstances ∧
    (lookupKey key st.instances = none → hasCfg key = true →
      st.instances.length < cfg.maxInstances →
      (getInstance cfg hasCfg finOk now key st).2.instances =
        st.instances ++ [(key, st.nextId)]) ∧
    (lookupKey key st.instances = none → hasCfg key = true →
      st.instances.length = cfg.maxInstances →
      (getInstance cfg hasCfg finOk now key st).2.instances =
        (st.instances ++ [(key, st.nextId)]).tail) := by
  refine ⟨?_, ?_, ?_⟩
  · unfold getInstance
    split
    · next inst hsome =>
        split
        · next la hla =>
            split
            · refine buildNew_length_le _ _ _ _ _ _ ?_
              exact Nat.le_trans (removeInstance_length_le _ _ _) hLen
            · dsimp only
              have hlt : (eraseKey key st.instances).length < st.instances.length :=
                length_eraseKey_lt (by rw [hsome]; rfl)
              simp only [List.length_append, List.length_cons, List.length_nil]
              omega
        · next hla =>
            dsimp only
            have hlt : (eraseKey key st.instances).length < st.instances.length :=
              length_eraseKey_lt (by rw [hsome]; rfl)
            simp only [List.length_append, List.length_cons, List.length_nil]
            omega
    · exact buildNew_length_le _ _ _ _ _ _ hLen
  · intro hmiss hc hroom
    rw [getInstance_miss_eq _ _ _ _ _ _ hmiss,
      buildNew_no_evict_eq _ _ _ _ _ _ hc hroom]
  · intro hmiss hc hfull
    rw [getInstance_miss_eq _ _ _ _ _ _ hmiss]
    exact (buildNew_evict_instances _ _ _ _ _ _ hc hmiss hNodup hfull).2

/-- Witness for C1: a full one-slot cache holding `kA`; inserting `kB`
evicts `kA`, the least-recently-used entry, and the count stays at the
maximum. -/
theorem c1_witness :
    (getInstance cfgOne allCfg allOk 0 kB stOne).2.instances.length ≤ cfgOne.maxInstances ∧
    (getInstance cfgOne allCfg allOk 0 kB stOne).2.instances =
      (stOne.instances ++ [(kB, stOne.nextId)]).tail := by
  have h := c1_lru_capacity cfgOne allCfg allOk 0 kB stOne (by decide) (by decide)
  exact ⟨h.1, h.2.2 (by decide) rfl (by decide)⟩

/-- C5: TTL is enforced lazily.  (a) A `get_instance` for a key whose idle
time exceeds the TTL tears the entry down and treats the call as a miss:
the builder runs again (`buildCount` increments) and a fresh instance —
`st.nextId`, not the cached one — is returned and cached.  (b) After an
explicit `cleanup_expired` sweep at instant `now`, no surviving
`_last_access` binding is idle past the TTL (given the bookkeeping
invariant relating the two maps). -/
theorem c5_ttl_lazy_and_sweep (cfg : IMConfig) (hasCfg finOk : Key → Bool) (now : Nat)
    (key : Key) (st : IMState) :
    (∀ inst la, lookupKey key st.instances = some inst →
      lookupKey key st.lastAccess = some la →
      cfg.ttl < now - la →
      hasCfg key = true →
      st.instances.length ≤ cfg.maxInstances →
      (getInstance cfg hasCfg finOk now key st).1 = GIResult.ok st.nextId ∧
      (getInstance cfg hasCfg finOk now key st).2.buildCount = st.buildCount + 1 ∧
      lookupKey key (getInstance cfg hasCfg finOk now key st).2.instances =
        some st.nextId) ∧
    (keySetEq st →
      ∀ k la, lookupKey k (cleanupExpired cfg finOk now st).lastAccess = some la →
        now - la ≤ cfg.ttl) := by
  constructor
  · intro inst la h1 h2 h3 hc hLen
    unfold getInstance
    rw [h1, h2]
    simp only [h3, if_true]
    have hguard : (lookupKey key st.instances).isSome = true := by rw [h1]; rfl
    have hremove : removeInstance (finOk key) key st =
        { st with
            instances := eraseKey key st.instances,
            lastAccess := eraseKey key st.lastAccess } := by
      unfold removeInstance
      rw [if_pos hguard]
    rw [hremove]
    have hroom : ({ st with
        instances := eraseKey key st.instances,
        lastAccess := eraseKey key st.lastAccess } : IMState).instances.length <
        cfg.maxInstances := by
      dsimp only
      have := length_eraseKey_lt (l := st.instances) hguard
      omega
    rw [buildNew_no_evict_eq _ _ _ _ _ _ hc hroom]
    refine ⟨rfl, rfl, ?_⟩
    dsimp only
    rw [lookupKey_append_none _ (lookupKey_eraseKey_self key st.instances)]
    simp [lookupKey]
  · intro hinv k la hla
    by_contra hgt
    have hgt' : cfg.ttl < now - la := Nat.lt_of_not_le (fun hc => hgt hc)
    unfold cleanupExpired at hla
    have horig : lookupKey k st.lastAccess = some la :=
      foldRemove_lastAccess_some _ _ hla
    have hmem : (k, la) ∈ st.lastAccess := lookupKey_some_mem horig
    have hmemf : (k, la) ∈ st.lastAccess.filter (fun kv => decide (cfg.ttl < now - kv.2)) :=
      List.mem_filter.2 ⟨hmem, by simpa using hgt'⟩
    have hkeys : k ∈ (st.lastAccess.filter
        (fun kv => decide (cfg.ttl < now - kv.2))).map Prod.fst :=
      List.mem_map_of_mem Prod.fst hmemf
    have := foldRemove_lastAccess_mem_none finOk _ hinv hkeys
    rw [this] at hla
    cases hla

/-- Witness for C5 at the mixed state: at instant 20 with TTL 10, `kA`
(idle 20) is rebuilt on access, and after a sweep the surviving binding of
`kB` (idle 5) is within the TTL. -/
theorem c5_witness :
    ((getInstance cfgTwo allCfg allOk 20 kA stMix).1 = GIResult.ok stMix.nextId ∧
      (getInstance cfgTwo allCfg allOk 20 kA stMix).2.buildCount = stMix.buildCount + 1 ∧
      lookupKey kA (getInstance cfgTwo allCfg allOk 20 kA stMix).2.instances =
        some stMix.nextId) ∧
    20 - 15 ≤ cfgTwo.ttl := by
  have h := c5_ttl_lazy_and_sweep cfgTwo allCfg allOk 20 kA stMix
  refine ⟨h.1 0 0 (by decide) (by decide) (by decide) rfl (by decide), ?_⟩
  refine h.2 ?_ kB 15 (by decide)
  intro k
  by_cases h1 : kA = k <;> by_cases h2 : kB = k <;> simp [stMix, lookupKey, h1, h2]

theorem lookupKey_cons_self {α : Type} (k : Key) (v : α) (tl : List (Key × α)) :
    lookupKey k ((k, v) :: tl) = some v := by
  simp [lookupKey]

/-- Once the instance for `key` is cached with access time `now`, every
further `get_instance` at the same instant is a pure hit: it returns the
cached instance and never invokes the builder. -/
theorem getMany_hit_aux (cfg : IMConfig) (hasCfg finOk : Key → Bool) (now : Nat)
    (key : Key) (n : Nat) :
    ∀ (st : IMState) (inst : Nat),
      lookupKey key st.instances = some inst →
      lookupKey key st.lastAccess = some now →
      (∀ r ∈ (getMany cfg hasCfg finOk now key n st).1, r = GIResult.ok inst) ∧
      (getMany cfg hasCfg finOk now key n st).2.buildCount = st.buildCount := by
  induction n with
  | zero =>
      intro st inst h1 h2
      exact ⟨fun r hr => absurd hr (by simp [getMany]), rfl⟩
  | succ m ih =>
      intro st inst h1 h2
      have hstep := getInstance_hit_eq cfg hasCfg finOk now key st h1 h2
        (by simp [Nat.sub_self])
      have h1' : lookupKey key
          ({ st with
              instances := eraseKey key st.instances ++ [(key, inst)],
              lastAccess := updateKey key now st.lastAccess } : IMState).instances =
          some inst := by
        dsimp only
        rw [lookupKey_append_none _ (lookupKey_eraseKey_self key st.instances)]
        exact lookupKey_cons_self key inst []
      have h2' : lookupKey key
          ({ st with
              instances := eraseKey key st.instances ++ [(key, inst)],
              lastAccess := updateKey key now st.lastAccess } : IMState).lastAccess =
          some now := by
        dsimp only
        exact lookupKey_updateKey_self key now st.lastAccess
      have hrest := ih _ inst h1' h2'
      constructor
      · intro r hr
        simp only [getMany, hstep] at hr
        rcases List.mem_cons.1 hr with hr0 | hr'
        · exact hr0
        · exact hrest.1 r hr'
      · simp only [getMany, hstep]
        exact hrest.2

/-- C2: single-flight under the manager's one lock.  `get_instance` holds
`self._lock` across its whole body — lookup, the awaited build, and
bookkeeping — so any `N` concurrent callers for one key execute as `N`
serialized atomic calls, which `getMany` models.  Starting from a miss
with room in the cache, `N ≥ 1` such calls invoke the builder exactly once
and every caller receives the identical instance (`st.nextId`, the one the
single build produced). -/
theorem c2_single_flight (cfg : IMConfig) (hasCfg finOk : Key → Bool) (now : Nat)
    (key : Key) (st : IMState) (n : Nat)
    (hMiss : lookupKey key st.instances = none)
    (hCfg : hasCfg key = true)
    (hRoom : st.instances.length < cfg.maxInstances) :
    (getMany cfg hasCfg finOk now key (n + 1) st).2.buildCount = st.buildCount + 1 ∧
    ∀ r ∈ (getMany cfg hasCfg finOk now key (n + 1) st).1,
      r = GIResult.ok st.nextId := by
  have hstep : getInstance cfg hasCfg finOk now key st =
      (GIResult.ok st.nextId,
        { st with
            instances := st.instances ++ [(key, st.nextId)],
            lastAccess := updateKey key now st.lastAccess,
            nextId := st.nextId + 1,
            buildCount := st.buildCount + 1 }) := by
    rw [getInstance_miss_eq _ _ _ _ _ _ hMiss,
      buildNew_no_evict_eq _ _ _ _ _ _ hCfg hRoom]
  have h1' : lookupKey key
      ({ st with
          instances := st.instances ++ [(key, st.nextId)],
          lastAccess := updateKey key now st.lastAccess,
          nextId := st.nextId + 1,
          buildCount := st.buildCount + 1 } : IMState).instances = some st.nextId := by
    dsimp only
    rw [lookupKey_append_none _ hMiss]
    exact lookupKey_cons_self key st.nextId []
  have h2' : lookupKey key
      ({ st with
          instances := st.instances ++ [(key, st.nextId)],
          lastAccess := updateKey key now st.lastAccess,
          nextId := st.nextId + 1,
          buildCount := st.buildCount + 1 } : IMState).lastAccess = some now := by
    dsimp only
    exact lookupKey_updateKey_self key now st.lastAccess
  have hrest := getMany_hit_aux cfg hasCfg finOk now key n _ st.nextId h1' h2'
  constructor
  · simp only [getMany, hstep]
    exact hrest.2
  · intro r hr
    simp only [getMany, hstep] at hr
    rcases List.mem_cons.1 hr with hr0 | hr'
    · exact hr0
    · exact hrest.1 r hr'

/-- Witness for C2: three serialized calls for `kA` on an empty cache
build once; no caller observes any instance but the first build's. -/
theorem c2_witness :
    (getMany cfgTwo allCfg allOk 0 kA 3 stEmpty).2.buildCount =
      stEmpty.buildCount + 1 ∧
    GIResult.ok 1 ∉ (getMany cfgTwo allCfg allOk 0 kA 3 stEmpty).1 := by
  have h := c2_single_flight cfgTwo allCfg allOk 0 kA stEmpty 2 (by decide) rfl (by decide)
  refine ⟨h.1, fun hmem => ?_⟩
  have := h.2 _ hmem
  exact absurd this (by decide)

/-! ## Authentication theorems -/

/-- C6: `decode_access_token` fails closed.  The function is total and
`Option`-valued (its two `except` clauses cover every PyJWT decode error),
and it yields a payload exactly for a token signed with the service's own
secret, carrying the `"access"` type marker, and not yet expired — so a
tampered or malformed signature, a wrong type marker, or a past expiry
each yield `None`, never an exception. -/
theorem c6_decode_fails_closed (secretKey : String) (now : Nat) (tok : Jwt)
    (p : JwtPayload) :
    decodeAccessToken secretKey now tok = some p ↔
      (tok = Jwt.signed secretKey p ∧ p.typ = accessMarker ∧ now < p.exp) := by
  cases tok with
  | malformed raw =>
      simp [decodeAccessToken, jwtDecode]
  | signed s q =>
      constructor
      · intro h
        unfold decodeAccessToken jwtDecode at h
        dsimp only at h
        by_cases hs : s = secretKey
        · subst hs
          rw [if_pos rfl] at h
          by_cases he : q.exp ≤ now
          · rw [if_pos he] at h
            dsimp only at h
            exact Option.noConfusion h
          · rw [if_neg he] at h
            dsimp only at h
            by_cases ht : q.typ = accessMarker
            · rw [if_pos ht] at h
              have hqp := Option.some.inj h
              subst hqp
              exact ⟨rfl, ht, Nat.lt_of_not_le he⟩
            · rw [if_neg ht] at h
              exact Option.noConfusion h
        · rw [if_neg hs] at h
          dsimp only at h
          exact Option.noConfusion h
      · rintro ⟨heq, ht, hlt⟩
        injection heq with h1 h2
        subst h1
        subst h2
        unfold decodeAccessToken jwtDecode
        dsimp only
        rw [if_pos rfl, if_neg (Nat.not_le.mpr hlt)]
        dsimp only
        rw [if_pos ht]

/-- C9: the password-reset request route answers with one fixed message —
the same literal on the success path and in its `except` arm — so the
caller-visible response is identical whether or not an active account with
the given email exists, over any two database states. -/
theorem c9_reset_uniform_response (freshTok : String) (now : Nat) (email : String)
    (db db' : AuthDB) :
    (requestPasswordResetRoute freshTok now email db).1 =
      (requestPasswordResetRoute freshTok now email db').1 ∧
    (requestPasswordResetRoute freshTok now email db).1 = resetResponseMsg :=
  ⟨rfl, rfl⟩

/-- C4: an API-key principal is bound to the `(tenant_id, project_id)` of
its key record.  (a) `check_project_access` denies with 403 whenever the
requested project differs from the key's binding, for every scope set —
including one containing `admin`.  (b) The binding the middleware installs
comes from the key row that `validate_api_key` matched, never from the
caller: a successful validation always returns the tenant and project of
some active, hash-matching stored row. -/
theorem c4_key_bound_to_project :
    (∀ (u kTid kPid : String) (scopes : List String) (tid pid : String)
        (mrole : Option String) (req : Option (List String)),
      (kTid ≠ tid ∨ kPid ≠ pid) →
      checkProjectAccess (AuthState.apiKeyAuth u kTid kPid scopes) tid pid mrole req =
        AccessDecision.httpError 403) ∧
    (∀ (now : Nat) (key : String) (db : ApiKeyDB) (ctx : ApiKeyContext),
      (validateApiKey now key db).1 = some ctx →
      ∃ r ∈ db.apiKeys, activeKeyFilter now r = true ∧
        bcryptCheck key r.keyHash = true ∧
        ctx.tenantId = r.tenantId ∧ ctx.projectId = r.projectId ∧
        apiKeyAuthState ctx =
          AuthState.apiKeyAuth r.userId r.tenantId r.projectId r.scopes) := by
  constructor
  · intro u kTid kPid scopes tid pid mrole req hne
    have hcond : ¬(kTid = tid ∧ kPid = pid) := by
      rintro ⟨h1, h2⟩
      rcases hne with h | h
      · exact h h1
      · exact h h2
    simp [checkProjectAccess, hcond]
  · intro now key db ctx hval
    unfold validateApiKey at hval
    split at hval
    · split at hval
      · next r hfind =>
          simp only [Option.some.injEq] at hval
          have hmemf := List.mem_of_find?_eq_some hfind
          have hcheck := List.find?_some hfind
          have hmem := List.mem_of_mem_filter hmemf
          have hactive := List.of_mem_filter hmemf
          refine ⟨r, hmem, hactive, hcheck, ?_, ?_, ?_⟩
          · rw [← hval]
          · rw [← hval]
          · rw [← hval]; rfl
      · cases hval
    · cases hval

/-- Witness for C4: an admin-scoped key bound to `(tW, pW)` is denied 403
for project `pX`, and validating its full key yields the binding of its
stored row. -/
theorem c4_witness :
    checkProjectAccess (AuthState.apiKeyAuth uW tW pW [adminScope]) tW pX none none =
      AccessDecision.httpError 403 ∧
    ∃ r ∈ apiDbK.apiKeys, activeKeyFilter 5 r = true ∧
      bcryptCheck fullKeyW r.keyHash = true ∧
      ctxW.tenantId = r.tenantId ∧ ctxW.projectId = r.projectId ∧
      apiKeyAuthState ctxW =
        AuthState.apiKeyAuth r.userId r.tenantId r.projectId r.scopes := by
  refine ⟨?_, ?_⟩
  · exact c4_key_bound_to_project.1 uW tW pW [adminScope] tW pX none none
      (Or.inr (by decide))
  · exact c4_key_bound_to_project.2 5 fullKeyW apiDbK ctxW (by decide)

theorem findValidRefresh_some {now : Nat} {tok : String} {db : AuthDB}
    {r : RefreshRow} {u : UserRow}
    (h : findValidRefresh now tok db = some (r, u)) :
    r ∈ db.refreshTokens ∧ r.token = tok ∧ now < r.expiresAt ∧ r.revokedAt = none := by
  unfold findValidRefresh at h
  split at h
  · cases h
  · next r0 hfind =>
      split at h
      · cases h
      · next u0 hu =>
          have hpair := Option.some.inj h
          have hr : r0 = r := congrArg Prod.fst hpair
          subst hr
          have hmem := List.mem_of_find?_eq_some hfind
          have hpred := List.find?_some hfind
          simp only [decide_eq_true_eq] at hpred
          exact ⟨hmem, hpred.1, hpred.2.1, hpred.2.2⟩

/-- Closed form of `refresh_access_token` on a valid presentation. -/
theorem refreshAccessToken_some_eq (secretKey : String) (aExp rExp now : Nat)
    (freshTok presented : String) (db : AuthDB) {r : RefreshRow} {u : UserRow}
    (h : findValidRefresh now presented db = some (r, u)) :
    refreshAccessToken secretKey aExp rExp now freshTok presented db =
      (some { accessToken := createAccessToken secretKey aExp now r.userId u.email,
              refreshToken := freshTok, expiresIn := aExp * 60, userId := r.userId },
        { db with
            refreshTokens :=
              (db.refreshTokens ++
                ([{ rowId := db.nextRefreshId, userId := r.userId, token := freshTok,
                    expiresAt := now + rExp, revokedAt := none,
                    replacedBy := none }] : List RefreshRow)).map (fun rr : RefreshRow =>
                if rr.rowId = r.rowId then
                  { rr with revokedAt := some now,
                            replacedBy := some db.nextRefreshId }
                else rr),
            nextRefreshId := db.nextRefreshId + 1 }) := by
  unfold refreshAccessToken
  rw [h]

/-- C7: refresh-token rotation.  A presented token that is missing,
expired, or revoked yields `None` and leaves the database untouched (no
new tokens).  A valid presentation yields a new `(access, refresh)` pair;
the successor row (carrying the fresh secret, unrevoked) is inserted, and
every row of the presented token is marked `revoked_at = now` with
`replaced_by` pointing at the successor's id — single use with an audit
back-reference.  The id-freshness hypothesis is the auto-increment
invariant of the `id` column. -/
theorem c7_refresh_rotation (secretKey : String) (aExp rExp now : Nat)
    (freshTok presented : String) (db : AuthDB) :
    (findValidRefresh now presented db = none →
      refreshAccessToken secretKey aExp rExp now freshTok presented db = (none, db)) ∧
    (∀ r u, findValidRefresh now presented db = some (r, u) →
      (∀ rr ∈ db.refreshTokens, rr.rowId < db.nextRefreshId) →
      ∃ resp db',
        refreshAccessToken secretKey aExp rExp now freshTok presented db =
          (some resp, db') ∧
        resp.refreshToken = freshTok ∧
        resp.userId = r.userId ∧
        ({ rowId := db.nextRefreshId, userId := r.userId, token := freshTok,
           expiresAt := now + rExp, revokedAt := none, replacedBy := none } :
            RefreshRow) ∈ db'.refreshTokens ∧
        (∀ rr ∈ db'.refreshTokens, rr.rowId = r.rowId →
          rr.revokedAt = some now ∧ rr.replacedBy = some db.nextRefreshId)) := by
  constructor
  · intro hnone
    unfold refreshAccessToken
    rw [hnone]
  · intro r u hfound hIds
    obtain ⟨hmem, -, -, -⟩ := findValidRefresh_some hfound
    have hrlt : r.rowId < db.nextRefreshId := hIds r hmem
    refine ⟨_, _,
      refreshAccessToken_some_eq secretKey aExp rExp now freshTok presented db hfound,
      rfl, rfl, ?_, ?_⟩
    · dsimp only
      refine List.mem_map.2
        ⟨RefreshRow.mk db.nextRefreshId r.userId freshTok (now + rExp) none none,
          List.mem_append_right _ (by simp), ?_⟩
      have hne : (RefreshRow.mk db.nextRefreshId r.userId freshTok
          (now + rExp) none none).rowId = r.rowId → False := by
        intro hc
        dsimp only at hc
        omega
      rw [if_neg hne]
    · intro rr hmem' hid
      dsimp only at hmem'
      rcases List.mem_map.1 hmem' with ⟨rr0, hrr0mem, hrr0⟩
      by_cases h0 : rr0.rowId = r.rowId
      · rw [if_pos h0] at hrr0
        rw [← hrr0]
        exact ⟨rfl, rfl⟩
      · rw [if_neg h0] at hrr0
        subst hrr0
        exact absurd hid h0

/-- Witness for C7: a live token row rotates; the successor is stored and
the presented row is revoked with the back-reference. -/
theorem c7_witness :
    ∃ resp db',
      refreshAccessToken sKeyW 60 43200 5 freshW oldTokW authDbW = (some resp, db') ∧
      resp.refreshToken = freshW ∧
      resp.userId = refreshRowW.userId ∧
      ({ rowId := authDbW.nextRefreshId, userId := refreshRowW.userId, token := freshW,
         expiresAt := 5 + 43200, revokedAt := none, replacedBy := none } :
          RefreshRow) ∈ db'.refreshTokens ∧
      (∀ rr ∈ db'.refreshTokens, rr.rowId = refreshRowW.rowId →
        rr.revokedAt = some 5 ∧ rr.replacedBy = some authDbW.nextRefreshId) :=
  (c7_refresh_rotation sKeyW 60 43200 5 freshW oldTokW authDbW).2 refreshRowW userW
    (by decide) (by decide)

/-! ## API-key theorems -/

theorem isPrefixOf_append_self {α : Type} [BEq α] [LawfulBEq α] (l t : List α) :
    l.isPrefixOf (l ++ t) = true := by
  induction l with
  | nil => simp [List.isPrefixOf]
  | cons a as ih => simp [List.isPrefixOf, ih]

theorem hasLragMarker_append (s : String) : hasLragMarker (lragMarker ++ s) = true := by
  rw [hasLragMarker, String.data_append]
  exact isPrefixOf_append_self _ _

theorem bcryptCheck_self (s : String) : bcryptCheck s (bcryptHash s) = true := by
  simp [bcryptCheck, bcryptHash]

theorem activeKeyFilter_spec {now : Nat} {r : ApiKeyRow}
    (h : activeKeyFilter now r = true) :
    r.isActive = true ∧ r.revokedAt = none ∧ ∀ e, r.expiresAt = some e → now < e := by
  unfold activeKeyFilter at h
  simp only [Bool.and_eq_true, decide_eq_true_eq] at h
  obtain ⟨⟨h1, h2⟩, h3⟩ := h
  refine ⟨h1, h2, ?_⟩
  intro e he
  rw [he] at h3
  simpa using h3

theorem find?_append_right {α : Type} (p : α → Bool) {l₁ : List α} (l₂ : List α)
    (h : ∀ a ∈ l₁, p a = false) : (l₁ ++ l₂).find? p = l₂.find? p := by
  rw [List.find?_append]
  have : l₁.find? p = none := List.find?_eq_none.2 (fun x hx hp => by
    rw [h x hx] at hp; cases hp)
  rw [this]
  rfl

/-- C8: API-key round trip and dead keys.  (a) A key issued by
`create_api_key` validates — provided its random part is fresh (no stored
hash matches it) and it is not yet expired — to exactly the
`(tenant_id, project_id, scopes)` it was issued with.  (b) After
`revoke_api_key` succeeds on the only row whose hash matches a key,
validating that key yields `None` (at any later instant).  (c) A key all
of whose matching rows are past their expiry validates to `None`. -/
theorem c8_roundtrip_and_revocation :
    (∀ (userId projectId name : String) (scopes : List String) (expiresAt : Option Nat)
        (rand : String) (db : ApiKeyDB) (now : Nat) (resp : ApiKeyCreated)
        (db' : ApiKeyDB),
      createApiKey userId projectId name scopes expiresAt rand db =
        Except.ok (resp, db') →
      (∀ r ∈ db.apiKeys, bcryptCheck (lragMarker ++ rand) r.keyHash = false) →
      expOk now expiresAt →
      (validateApiKey now resp.key db').1 =
          some { keyId := resp.keyId, userId := userId, tenantId := resp.tenantId,
                 projectId := resp.projectId, scopes := resp.scopes } ∧
        resp.projectId = projectId ∧ resp.scopes = scopes ∧
        resp.key = lragMarker ++ rand) ∧
    (∀ (now now2 : Nat) (kid : Nat) (uid key : String) (db db2 : ApiKeyDB),
      (∀ r ∈ db.apiKeys, bcryptCheck key r.keyHash = true → r.rowId = kid) →
      revokeApiKey now kid uid db = Except.ok (true, db2) →
      (validateApiKey now2 key db2).1 = none) ∧
    (∀ (now : Nat) (key : String) (db : ApiKeyDB),
      (∀ r ∈ db.apiKeys, bcryptCheck key r.keyHash = true →
        ∃ e, r.expiresAt = some e ∧ e ≤ now) →
      (validateApiKey now key db).1 = none) := by
  refine ⟨?_, ?_, ?_⟩
  · intro userId projectId name scopes expiresAt rand db now resp db' hCreate hFresh hExp
    unfold createApiKey at hCreate
    split at hCreate
    · cases hCreate
    · next proj hproj =>
        split at hCreate
        · next hmemb =>
            dsimp only [generateApiKey] at hCreate
            have hpair := Except.ok.inj hCreate
            have hresp : resp =
                { keyId := db.nextKeyId, name := name,
                  key := lragMarker ++ rand,
                  keyPfx := ((lragMarker ++ rand).take 12) ++ dots,
                  projectId := projectId, tenantId := proj.2, scopes := scopes,
                  expiresAt := expiresAt } := (congrArg Prod.fst hpair).symm
            have hdb : db' = { db with
                apiKeys := db.apiKeys ++
                  [{ rowId := db.nextKeyId, userId := userId, tenantId := proj.2,
                     projectId := projectId, name := name,
                     keyPfx := ((lragMarker ++ rand).take 12) ++ dots,
                     keyHash := bcryptHash (lragMarker ++ rand), scopes := scopes,
                     expiresAt := expiresAt, isActive := true, revokedAt := none,
                     revokedBy := none, lastUsedAt := none }],
                nextKeyId := db.nextKeyId + 1 } := (congrArg Prod.snd hpair).symm
            subst hresp
            subst hdb
            refine ⟨?_, rfl, rfl, rfl⟩
            have hact : activeKeyFilter now
                { rowId := db.nextKeyId, userId := userId, tenantId := proj.2,
                  projectId := projectId, name := name,
                  keyPfx := ((lragMarker ++ rand).take 12) ++ dots,
                  keyHash := bcryptHash (lragMarker ++ rand), scopes := scopes,
                  expiresAt := expiresAt, isActive := true, revokedAt := none,
                  revokedBy := none, lastUsedAt := none } = true := by
              unfold activeKeyFilter
              cases expiresAt with
              | none => simp
              | some e =>
                  have he : now < e := hExp
                  simp [he]
            have hfresh2 : ∀ a ∈ db.apiKeys.filter (activeKeyFilter now),
                (fun r : ApiKeyRow =>
                  bcryptCheck (lragMarker ++ rand) r.keyHash) a = false :=
              fun a ha => hFresh a (List.mem_of_mem_filter ha)
            have hfind : ((db.apiKeys ++
                ([{ rowId := db.nextKeyId, userId := userId, tenantId := proj.2,
                    projectId := projectId, name := name,
                    keyPfx := ((lragMarker ++ rand).take 12) ++ dots,
                    keyHash := bcryptHash (lragMarker ++ rand), scopes := scopes,
                    expiresAt := expiresAt, isActive := true, revokedAt := none,
                    revokedBy := none,
                    lastUsedAt := none }] : List ApiKeyRow)).filter
                  (activeKeyFilter now)).find?
                (fun r : ApiKeyRow => bcryptCheck (lragMarker ++ rand) r.keyHash) =
                some { rowId := db.nextKeyId, userId := userId, tenantId := proj.2,
                       projectId := projectId, name := name,
                       keyPfx := ((lragMarker ++ rand).take 12) ++ dots,
                       keyHash := bcryptHash (lragMarker ++ rand), scopes := scopes,
                       expiresAt := expiresAt, isActive := true, revokedAt := none,
                       revokedBy := none, lastUsedAt := none } := by
              rw [List.filter_append, List.filter_cons_of_pos hact, List.filter_nil,
                find?_append_right _ _ hfresh2]
              exact List.find?_cons_of_pos _ (bcryptCheck_self (lragMarker ++ rand))
            unfold validateApiKey
            rw [if_pos (hasLragMarker_append rand)]
            dsimp only
            rw [hfind]
        · cases hCreate
  · intro now now2 kid uid key db db2 hUnique hRevoke
    unfold revokeApiKey at hRevoke
    split at hRevoke
    · cases hRevoke
    · next r0 hfind0 =>
        split at hRevoke
        · next hown =>
            have hpair := Except.ok.inj hRevoke
            have hdb2 : db2 = { db with apiKeys := db.apiKeys.map (fun rr =>
                if rr.rowId = kid then
                  { rr with isActive := false, revokedAt := some now,
                            revokedBy := some uid }
                else rr) } := (congrArg Prod.snd hpair).symm
            subst hdb2
            unfold validateApiKey
            split
            · split
              · next rx hfindx =>
                  exfalso
                  have hcheck := List.find?_some hfindx
                  have hmemf := List.mem_of_find?_eq_some hfindx
                  have hactx := List.of_mem_filter hmemf
                  have hmemx := List.mem_of_mem_filter hmemf
                  dsimp only at hmemx
                  rcases List.mem_map.1 hmemx with ⟨r1, hr1mem, hr1⟩
                  by_cases hk : r1.rowId = kid
                  · rw [if_pos hk] at hr1
                    have : rx.isActive = true := (activeKeyFilter_spec hactx).1
                    rw [← hr1] at this
                    cases this
                  · rw [if_neg hk] at hr1
                    subst hr1
                    exact hk (hUnique r1 hr1mem hcheck)
              · rfl
            · rfl
        · cases hRevoke
  · intro now key db hAllExp
    unfold validateApiKey
    split
    · split
      · next rx hfindx =>
          exfalso
          have hcheck := List.find?_some hfindx
          have hmemf := List.mem_of_find?_eq_some hfindx
          have hactx := List.of_mem_filter hmemf
          have hmemx := List.mem_of_mem_filter hmemf
          obtain ⟨e, he, hle⟩ := hAllExp rx hmemx hcheck
          have := (activeKeyFilter_spec hactx).2.2 e he
          omega
      · rfl
    · rfl

/-- Witness for C8: creating `fullKeyW` then validating it returns its own
binding; validating it after revocation, or with a past expiry, returns
`None`. -/
theorem c8_witness :
    ((validateApiKey 5 respW.key apiDbK).1 =
        some { keyId := respW.keyId, userId := uW, tenantId := respW.tenantId,
               projectId := respW.projectId, scopes := respW.scopes } ∧
      respW.projectId = pW ∧ respW.scopes = [adminScope] ∧
      respW.key = lragMarker ++ randW) ∧
    (validateApiKey 8 fullKeyW apiDbRevoked).1 = none ∧
    (validateApiKey 5 fullKeyW apiDbExp).1 = none := by
  refine ⟨?_, ?_, ?_⟩
  · exact c8_roundtrip_and_revocation.1 uW pW nameW [adminScope] none randW apiDbW 5
      respW apiDbK rfl (by decide) trivial
  · exact c8_roundtrip_and_revocation.2.1 7 8 1 uW fullKeyW apiDbK apiDbRevoked
      (by decide) rfl
  · exact c8_roundtrip_and_revocation.2.2 5 fullKeyW apiDbExp (by decide)

/-! ## Membership theorems -/

theorem countP_and_split {α : Type} (p q : α → Bool) (l : List α) :
    l.countP p = l.countP (fun a => p a && q a) + l.countP (fun a => p a && !q a) := by
  induction l with
  | nil => rfl
  | cons a t ih =>
      simp only [List.countP_cons, ih]
      cases hp : p a <;> cases hq : q a <;> simp [hp, hq] <;> omega

theorem countP_key_le_one {α β : Type} [DecidableEq β] (f : α → β) (x : β)
    (l : List α) (h : (l.map f).Nodup) :
    l.countP (fun a => decide (f a = x)) ≤ 1 := by
  induction l with
  | nil => simp
  | cons a t ih =>
      rw [List.map_cons, List.nodup_cons] at h
      by_cases hx : f a = x
      · rw [List.countP_cons_of_pos _ _ (by simpa using hx)]
        have hzero : t.countP (fun b => decide (f b = x)) = 0 :=
          List.countP_eq_zero.2 (fun b hb => by
            simp only [decide_eq_true_eq]
            intro hc
            exact h.1 (by rw [hx, ← hc]; exact List.mem_map_of_mem f hb))
        omega
      · rw [List.countP_cons_of_neg _ _ (by simpa using hx)]
        exact ih h.2

/-- C3 counterexample: on a project whose membership table holds exactly
one member, an owner, `update_member_role` invoked by that owner to demote
themselves succeeds — there is no last-owner check on this path — leaving
the project with zero owners, so the claim that every membership operation
preserves at least one owner is false on the code. -/
theorem c3_counterexample :
    ownerCount tblSolo pW = 1 ∧
    updateMemberRole tblSolo pW uW Role.member uW = Except.ok tblDemoted ∧
    ownerCount tblDemoted pW = 0 :=
  ⟨by decide, rfl, by decide⟩

/-- C3 (amended): `remove_member` preserves the at-least-one-owner
invariant: under the table's `(project_id, user_id)` key constraint, a
successful removal from a project with an owner leaves it with an owner;
removal of an owner while the project has at most one owner fails with the
dedicated last-owner error (`ValueError`, the spec's Conflict, mapped to
HTTP 400 by the route) and performs no deletion; removal of an owner while
a second owner exists succeeds.  `update_member_role`, by contrast,
performs no owner check and can demote the sole owner
(see the counterexample). -/
theorem c3_amended_remove_preserves_owner :
    (∀ (table : List MemberRow) (p target remover : String) (t' : List MemberRow),
      pairNodup table → 1 ≤ ownerCount table p →
      removeMember table p target remover = Except.ok t' →
      1 ≤ ownerCount t' p) ∧
    (∀ (table : List MemberRow) (p target remover : String),
      memberRole table p remover = some Role.owner →
      memberRole table p target = some Role.owner →
      ownerCount table p ≤ 1 →
      removeMember table p target remover =
        Except.error (SvcError.valueError msgLastOwner)) ∧
    (∀ (table : List MemberRow) (p target remover : String),
      memberRole table p remover = some Role.owner →
      memberRole table p target = some Role.owner →
      2 ≤ ownerCount table p →
      ∃ t', removeMember table p target remover = Except.ok t') := by
  refine ⟨?_, ?_, ?_⟩
  · intro table p target remover t' hnd hpos hok
    unfold removeMember at hok
    split at hok
    · next hrem =>
        split at hok
        · cases hok
        · next hcond =>
            have ht' := Except.ok.inj hok
            subst ht'
            rw [ownerCount, List.countP_filter]
            rw [ownerCount] at hpos
            set P := fun r : MemberRow => decide (r.projectId = p ∧ r.role = Role.owner)
              with hP
            set T := fun r : MemberRow => decide (r.projectId = p ∧ r.userId = target)
              with hT
            have hsplit := countP_and_split P T table
            have hA : table.countP (fun r => P r && T r) ≤ 1 := by
              refine Nat.le_trans (List.countP_mono_left ?_)
                (countP_key_le_one (fun r : MemberRow => (r.projectId, r.userId))
                  (p, target) table hnd)
              intro r _ hPT
              simp only [hP, hT, Bool.and_eq_true, decide_eq_true_eq] at hPT
              simp only [decide_eq_true_eq, Prod.mk.injEq]
              exact ⟨hPT.1.1, hPT.2.2⟩
            have hgoal : table.countP (fun r => P r && !(T r)) =
                table.countP (fun r =>
                  P r && !(decide (r.projectId = p ∧ r.userId = target))) := rfl
            by_cases htar : memberRole table p target = some Role.owner
            · have hgt : ¬ownerCount table p ≤ 1 := fun hle => hcond ⟨htar, hle⟩
              rw [ownerCount, ← hP] at hgt
              rw [← hgoal]
              omega
            · have hAzero : table.countP (fun r => P r && T r) = 0 := by
                refine List.countP_eq_zero.2 ?_
                intro r hrmem hPT
                simp only [hP, hT, Bool.and_eq_true, decide_eq_true_eq] at hPT
                obtain ⟨⟨hproj, hrole⟩, ⟨hproj', huser⟩⟩ := hPT
                have hTr : T r = true := by
                  simp only [hT, decide_eq_true_eq]
                  exact ⟨hproj, huser⟩
                have hex : ∃ r0, table.find? T = some r0 :=
                  Option.isSome_iff_exists.1 (List.find?_isSome.2 ⟨r, hrmem, hTr⟩)
                obtain ⟨r0, hfind⟩ := hex
                have hr0mem := List.mem_of_find?_eq_some hfind
                have hTr0 := List.find?_some hfind
                simp only [hT, decide_eq_true_eq] at hTr0
                have hpair : (fun rr : MemberRow => (rr.projectId, rr.userId)) r0 =
                    (fun rr : MemberRow => (rr.projectId, rr.userId)) r := by
                  simp only [Prod.mk.injEq]
                  exact ⟨by rw [hTr0.1, hproj], by rw [hTr0.2, huser]⟩
                have hr0r : r0 = r :=
                  List.inj_on_of_nodup_map hnd hr0mem hrmem hpair
                apply htar
                unfold memberRole
                rw [hfind]
                simp [hr0r, hrole]
              rw [← hgoal]
              omega
    · cases hok
  · intro table p target remover hrem htar hle
    unfold removeMember
    rw [if_pos hrem, if_pos ⟨htar, hle⟩]
  · intro table p target remover hrem htar hge
    unfold removeMember
    rw [if_pos hrem, if_neg (fun hc => by omega)]
    exact ⟨_, rfl⟩

/-- Witness for C3 (amended): removing one of two owners succeeds and
leaves an owner; removing the sole owner fails with the last-owner error. -/
theorem c3_witness :
    1 ≤ ownerCount tblSolo pW ∧
    removeMember tblSolo pW uW uW =
      Except.error (SvcError.valueError msgLastOwner) :=
  ⟨c3_amended_remove_preserves_owner.1 tblTwo pW uV uW tblSolo
      (by unfold pairNodup; decide) (by decide) rfl,
    c3_amended_remove_preserves_owner.2.1 tblSolo pW uW uW
      (by decide) (by decide) (by decide)⟩

end LightRAGSpec
